import Mathlib

/-!
Verification of the `thompson_nfa_compiler` crate: a shallow embedding of
`src/nfa.rs`, `src/matcher.rs` and `src/compiler.rs` in Lean, together with
theorems settling the frozen claims about the crate.

Conventions of the embedding:
  * Rust `usize` state ids become `Nat`; the sentinel `usize::MAX` becomes
    the constant `UNPATCHED` (2 ^ 64 - 1), matching the 64-bit build.
  * Rust `HashSet<StateId>` values become `Finset Nat`; equality of such
    sets in Rust (`PartialEq` for `HashSet`) is set equality, matching
    `Finset` equality.
  * The iteration order of a Rust `HashSet` is not determined by its
    contents.  The only place where that order is observable in the crate
    is `compile_negated_unicode_class`, which iterates a
    `HashSet<char>` of rejected characters while building a transition
    vector.  The embedding makes that order an explicit parameter of type
    `Oracle` (a function reordering the rejected-character list); every
    other part of the compiler ignores it.
  * Fallible code returns `Except CompileError`; the compiler state (the
    single `NFA` builder) is threaded explicitly through `M`.
  * Field names `end` of `Fragment` and `MatchResult` are Lean keywords
    and are rendered as `stop`.
-/

namespace TNC

/-- Rust `type StateId = usize`. -/
abbrev StateId := Nat

/-- The sentinel target `usize::MAX` used for not-yet-patched transitions. -/
def UNPATCHED : Nat := 2 ^ 64 - 1

/-- Rust `struct TwoCharTransition` from `nfa.rs`: `current` is the
predicate on the consumed character (`none` means any character),
`lookahead` the optional predicate on the next character. -/
structure TwoCharTransition where
  current : Option Char
  lookahead : Option Char
  target : StateId
deriving DecidableEq

/-- `TwoCharTransition::char` from `nfa.rs`. -/
def TwoCharTransition.char (ch : Char) (target : StateId) : TwoCharTransition :=
  ⟨some ch, none, target⟩

/-- `TwoCharTransition::char_with_lookahead` from `nfa.rs`. -/
def TwoCharTransition.char_with_lookahead (current lookahead : Char) (target : StateId) :
    TwoCharTransition :=
  ⟨some current, some lookahead, target⟩

/-- `TwoCharTransition::dot` from `nfa.rs`. -/
def TwoCharTransition.dot (target : StateId) : TwoCharTransition :=
  ⟨none, none, target⟩

/-- Rust `enum State` from `nfa.rs`. -/
inductive State where
  | Transitions (transitions : List TwoCharTransition)
  | Epsilon (next : StateId)
  | Split (targets : List StateId)
  | Match
  | Rejected
deriving DecidableEq

/-- Rust `struct Fragment` (`end` is the Lean keyword, rendered `stop`). -/
structure Fragment where
  start : StateId
  stop : StateId
deriving DecidableEq

/-- Rust `struct NFA` from `nfa.rs`. -/
structure NFA where
  states : List State
  start : StateId
  accepting : Finset Nat
  next_id : StateId
deriving DecidableEq

/-- `NFA::new`. -/
def NFA.new : NFA := ⟨[], 0, ∅, 0⟩

/-- `NFA::add_state`: push the state, hand out `next_id`, bump `next_id`. -/
def NFA.add_state (n : NFA) (s : State) : StateId × NFA :=
  (n.next_id, { n with states := n.states ++ [s], next_id := n.next_id + 1 })

/-- `NFA::epsilon`. -/
def NFA.epsilon (n : NFA) (next : StateId) : StateId × NFA :=
  n.add_state (State.Epsilon next)

/-- `NFA::split`. -/
def NFA.split (n : NFA) (targets : List StateId) : StateId × NFA :=
  n.add_state (State.Split targets)

/-- `NFA::transition_state`. -/
def NFA.transition_state (n : NFA) (t : TwoCharTransition) : StateId × NFA :=
  n.add_state (State.Transitions [t])

/-- `NFA::transitions_state`. -/
def NFA.transitions_state (n : NFA) (ts : List TwoCharTransition) : StateId × NFA :=
  n.add_state (State.Transitions ts)

/-- `NFA::match_state`: adds a `Match` state and inserts it into `accepting`. -/
def NFA.match_state (n : NFA) : StateId × NFA :=
  let p := n.add_state State.Match
  (p.1, { p.2 with accepting := insert p.1 p.2.accepting })

/-- `NFA::rejected_state`. -/
def NFA.rejected_state (n : NFA) : StateId × NFA :=
  n.add_state State.Rejected

/-- The in-place rewrite `NFA::connect` performs on the state `from`. -/
def connectState (s : State) (toId : StateId) : State :=
  match s with
  | State.Epsilon _ => State.Epsilon toId
  | State.Split targets => State.Split (targets ++ [toId])
  | State.Transitions ts =>
      State.Transitions (ts.map fun t =>
        if t.target = UNPATCHED then { t with target := toId } else t)
  | State.Match => State.Match
  | State.Rejected => State.Rejected

/-- `NFA::connect`: out-of-range `from` is a no-op, otherwise the state is
rewritten in place according to its variant. -/
def NFA.connect (n : NFA) (from_ toId : StateId) : NFA :=
  if h : from_ < n.states.length then
    { n with states := n.states.set from_ (connectState (n.states.get ⟨from_, h⟩) toId) }
  else n

/-- Epsilon successors of a single id: `Epsilon` contributes its `next`,
`Split` its targets; out-of-range ids and all other variants contribute
nothing (the Rust worklist skips them). -/
def NFA.epsSucc (n : NFA) (id : Nat) : Finset Nat :=
  match n.states.get? id with
  | some (State.Epsilon next) => {next}
  | some (State.Split targets) => targets.toFinset
  | _ => ∅

/-- One round of the epsilon-closure worklist: keep the set and add the
epsilon successors of its members. -/
def NFA.closureStep (n : NFA) (S : Finset Nat) : Finset Nat :=
  S ∪ S.biUnion n.epsSucc

/-- `NFA::epsilon_closure`.  The Rust worklist computes the least set that
contains the seed and is closed under epsilon successors of in-range ids;
iterating `closureStep` `states.len() + 1` times reaches exactly that
least fixed point (proved below in `closureStep_epsilon_closure`). -/
def NFA.epsilon_closure (n : NFA) (S : Finset Nat) : Finset Nat :=
  (n.closureStep)^[n.states.length + 1] S

/-- `NFA::is_accepting`. -/
def NFA.is_accepting (n : NFA) (states : Finset Nat) : Prop :=
  ∃ s ∈ states, s ∈ n.accepting

instance (n : NFA) (states : Finset Nat) : Decidable (n.is_accepting states) := by
  unfold NFA.is_accepting; infer_instance

/-- Rust `struct MatchResult` (`end` rendered `stop`). -/
structure MatchResult where
  matched : Bool
  start : Nat
  stop : Nat
deriving DecidableEq

/-- `Option<char>` predicate test used by the matcher (`None` matches any
character, `Some(c)` matches exactly `c`). -/
def predMatches (p : Option Char) (c : Char) : Bool :=
  match p with
  | none => true
  | some ch => ch == c

/-- `Matcher::transition_matches`. -/
def transition_matches (t : TwoCharTransition) (current_char : Char)
    (next_char : Option Char) : Bool :=
  if ¬ predMatches t.current current_char then false
  else
    match t.lookahead, next_char with
    | none, _ => true
    | some p, some actual => predMatches (some p) actual
    | some _, none => false

/-- `Matcher::step_states` (together with `NFA::get_two_char_transitions`):
the set of targets of matching transitions out of `Transitions` states in
the current set.  The Rust code first collects the transition records in
hash order and then inserts targets into a `HashSet`; only the resulting
set is observable, so the embedding builds it directly. -/
def step_states (n : NFA) (current : Finset Nat) (current_char : Char)
    (next_char : Option Char) : Finset Nat :=
  current.biUnion fun id =>
    match n.states.get? id with
    | some (State.Transitions ts) =>
        ((ts.filter fun t => transition_matches t current_char next_char).map
          (fun t => t.target)).toFinset
    | _ => ∅

/-- The `while` loop of `Matcher::match_at`, starting at `position` with
current state set `cs` (the trailing accepting check of the Rust code is
the fall-through branch).  The loop is driven by structural recursion on
a fuel argument so that the kernel can evaluate it; every iteration
increments `position` and the loop stops once `position` reaches
`chars.length`, so the `chars.length + 1` units supplied by `match_at`
strictly dominate the Rust loop, and the fuel-exhaustion arm (which
coincides with the loop-exit arm) is unreachable. -/
def matchLoop (n : NFA) (chars : List Char) : Nat → Nat → Finset Nat → Option Nat
  | 0, position, cs => if n.is_accepting cs then some position else none
  | fuel + 1, position, cs =>
    if h : position < chars.length ∧ cs.Nonempty then
      let current_char := chars.get ⟨position, h.1⟩
      let next_char : Option Char :=
        if h2 : position + 1 < chars.length then some (chars.get ⟨position + 1, h2⟩)
        else none
      let ns := step_states n cs current_char next_char
      if ns = ∅ then
        if n.is_accepting cs then some position else none
      else
        let cs' := n.epsilon_closure ns
        if n.is_accepting cs' then some (position + 1)
        else matchLoop n chars fuel (position + 1) cs'
    else
      if n.is_accepting cs then some position else none

/-- `Matcher::match_at`. -/
def match_at (n : NFA) (chars : List Char) (start : Nat) : Option Nat :=
  let cs := n.epsilon_closure {n.start}
  if n.is_accepting cs ∧ start ≤ chars.length then some start
  else matchLoop n chars (chars.length + 1) start cs

/-- `Matcher::is_match`. -/
def is_match (n : NFA) (chars : List Char) : Bool :=
  match_at n chars 0 == some chars.length

/-- The `for start in 0..=chars.len()` loop of `Matcher::find`: fuel-driven
structural recursion; `find` supplies `chars.length + 1` units, one per
candidate start position, so the fuel-exhaustion arm is unreachable. -/
def findFrom (n : NFA) (chars : List Char) : Nat → Nat → Option MatchResult
  | 0, _ => none
  | fuel + 1, start =>
    if start ≤ chars.length then
      match match_at n chars start with
      | some e => some ⟨true, start, e⟩
      | none => findFrom n chars fuel (start + 1)
    else none

/-- `Matcher::find`. -/
def find (n : NFA) (chars : List Char) : Option MatchResult :=
  findFrom n chars (chars.length + 1) 0

/-- The `while start < chars.len()` loop of `Matcher::find_all`: `start`
strictly increases each iteration and the loop stops at `chars.length`,
so the `chars.length + 1` fuel units supplied by `find_all` strictly
dominate the Rust loop and the fuel-exhaustion arm is unreachable. -/
def findAllFrom (n : NFA) (chars : List Char) : Nat → Nat → List MatchResult
  | 0, _ => []
  | fuel + 1, start =>
    if start < chars.length then
      match match_at n chars start with
      | some match_len =>
          ⟨true, start, match_len⟩ :: findAllFrom n chars fuel (max match_len (start + 1))
      | none => findAllFrom n chars fuel (start + 1)
    else []

/-- `Matcher::find_all`. -/
def find_all (n : NFA) (chars : List Char) : List MatchResult :=
  findAllFrom n chars (chars.length + 1) 0

/-! ## The compiler (`compiler.rs`, `lib.rs`) -/

/-- Rust `enum CompileError` from `lib.rs`. -/
inductive CompileError where
  | TooComplex
  | UnsupportedFeature (reason : String)
  | Internal (reason : String)
deriving DecidableEq

instance {ε α : Type} [DecidableEq ε] [DecidableEq α] : DecidableEq (Except ε α)
  | Except.ok a, Except.ok b =>
      if h : a = b then isTrue (by rw [h]) else isFalse (by simp [h])
  | Except.ok _, Except.error _ => isFalse (by simp)
  | Except.error _, Except.ok _ => isFalse (by simp)
  | Except.error e, Except.error f =>
      if h : e = f then isTrue (by rw [h]) else isFalse (by simp [h])

/-- The compiler computation type: the single `NFA` builder owned by the
`Compiler` struct is threaded explicitly; failures short-circuit as in
Rust `?`. -/
def M (α : Type) := NFA → Except CompileError (α × NFA)

/-- Return a pure value, leaving the builder unchanged. -/
def mPure {α : Type} (a : α) : M α := fun n => Except.ok (a, n)

/-- Sequencing of compiler steps (Rust `?` plus ordinary control flow). -/
def mBind {α β : Type} (m : M α) (k : α → M β) : M β := fun n =>
  match m n with
  | Except.ok (a, n') => k a n'
  | Except.error e => Except.error e

/-- Raise a `CompileError`. -/
def mErr {α : Type} (e : CompileError) : M α := fun _ => Except.error e

/-- Run a builder primitive that returns a value and the updated builder. -/
def mState {α : Type} (f : NFA → α × NFA) : M α := fun n => Except.ok (f n)

/-- Run a builder mutation. -/
def mModify (f : NFA → NFA) : M Unit := fun n => Except.ok ((), f n)

/-- Lift a stateless fallible computation into `M`. -/
def mOfExcept {α : Type} (x : Except CompileError α) : M α := fun n =>
  match x with
  | Except.ok a => Except.ok (a, n)
  | Except.error e => Except.error e

/-- The subset of `regex_syntax::hir::Look` the compiler inspects: the six
anchors it treats as lookaheads, plus `Word` standing for every other
(non-anchor) `Look` variant such as word boundaries. -/
inductive Look where
  | Start
  | End
  | StartLF
  | EndLF
  | StartCRLF
  | EndCRLF
  | Word
deriving DecidableEq

/-- `regex_syntax::hir::RepetitionKind`. -/
inductive RepetitionKind where
  | Greedy
  | Reluctant
  | Possessive
deriving DecidableEq

/-- The HIR subset consumed by the compiler (`regex_syntax::hir::HirKind`).
`literal` carries the character sequence `compile_literal` decodes from
the literal bytes; `classU` carries the scalar ranges of a
`ClassUnicode` as `(start, end)` pairs and `classB` the byte ranges of a
`ClassBytes`. -/
inductive Hir where
  | empty
  | literal (chars : List Char)
  | classU (ranges : List (Char × Char))
  | classB (ranges : List (Nat × Nat))
  | look (l : Look)
  | repetition (min : Nat) (max : Option Nat) (kind : RepetitionKind) (sub : Hir)
  | capture (sub : Hir)
  | concat (subs : List Hir)
  | alternation (subs : List Hir)

/-- `char::from_u32`: `some` exactly on valid Unicode scalar values. -/
def charFromU32 (code : Nat) : Option Char :=
  if h : code.isValidChar then some (Char.ofNatAux code h) else none

/-- `byte as char` for a byte value (always a valid scalar). -/
def byteToChar (b : Nat) : Char := Char.ofNat b

/-- The order in which the transition-building loop of
`compile_negated_unicode_class` visits its `HashSet<char>` of rejected
characters.  Rust fixes no such order (hash iteration), so the embedding
takes it as a parameter applied to the insertion-order list. -/
def Oracle := List Char → List Char

/-- The identity order (insertion order). -/
def ordId : Oracle := id

/-- The reversed order: like `ordId`, a possible hash iteration order. -/
def ordRev : Oracle := List.reverse

/-- The per-range loop of `Compiler::extract_lookahead_chars` for a
Unicode class: ranges spanning at most 10 code points are enumerated,
a wider range aborts with `UnsupportedFeature`. -/
def extractClassURanges : List (Char × Char) → Except CompileError (List Char)
  | [] => Except.ok []
  | r :: rest =>
    if r.2.toNat - r.1.toNat ≤ 10 then
      match extractClassURanges rest with
      | Except.ok cs =>
          Except.ok (((List.range' r.1.toNat (r.2.toNat - r.1.toNat + 1)).filterMap
            charFromU32) ++ cs)
      | Except.error e => Except.error e
    else Except.error (.UnsupportedFeature (r"large character ranges in lookahead"))

/-- `Compiler::extract_lookahead_chars`. -/
def extract_lookahead_chars : Hir → Except CompileError (List Char)
  | Hir.literal chars => Except.ok chars
  | Hir.classU ranges => extractClassURanges ranges
  | Hir.classB ranges =>
      Except.ok (ranges.flatMap fun r => (List.range' r.1 (r.2 + 1 - r.1)).map byteToChar)
  | _ => Except.error (.UnsupportedFeature (r"complex lookahead patterns"))

/-- `Compiler::extract_pattern_chars` (the Rust body delegates to
`extract_lookahead_chars`). -/
def extract_pattern_chars (h : Hir) : Except CompileError (List Char) :=
  extract_lookahead_chars h

/-- `Compiler::is_possessive`. -/
def is_possessive : Hir → Bool
  | Hir.repetition _ _ RepetitionKind.Possessive _ => true
  | _ => false

/-- `Compiler::is_lookahead`: true exactly for the six anchor `Look`s. -/
def is_lookahead : Hir → Bool
  | Hir.look l =>
    match l with
    | Look.Start | Look.End | Look.StartLF | Look.EndLF
    | Look.StartCRLF | Look.EndCRLF => true
    | _ => false
  | _ => false

/-- `Compiler::is_disjoint_lookahead`: every `Look` node is declared
disjoint (both match arms return `Ok(true)`), anything else is not. -/
def is_disjoint_lookahead (_possessive lookahead : Hir) : Except CompileError Bool :=
  match lookahead with
  | Hir.look _ => Except.ok true
  | _ => Except.ok false

/-- `Compiler::compile_empty`: a single epsilon state with a placeholder
target, start and end coincide. -/
def compile_empty : M Fragment :=
  mBind (mState fun n => n.epsilon 0) fun s => mPure ⟨s, s⟩

/-- The per-character state creation loop of `Compiler::compile_literal`. -/
def literalStates : List Char → M (List Fragment)
  | [] => mPure []
  | ch :: rest =>
    mBind (mState fun n => n.transition_state (TwoCharTransition.char ch UNPATCHED))
      fun state_id =>
    mBind (literalStates rest) fun fs => mPure (⟨state_id, state_id⟩ :: fs)

/-- Connect consecutive fragments: `connect(fragments[i].end,
fragments[i+1].start)` for all adjacent pairs (used by `compile_literal`,
`compile_concat` and the mandatory prefix of `compile_counted`). -/
def connectChain : List Fragment → M Unit
  | f1 :: f2 :: rest =>
    mBind (mModify fun n => n.connect f1.stop f2.start) fun _ => connectChain (f2 :: rest)
  | _ => mPure ()

/-- `Compiler::compile_literal`.  The final indexing `fragments[0]` /
`fragments[len-1]` cannot fail because `chars` is non-empty there; the
unreachable arm is mapped to an `Internal` error. -/
def compile_literal (chars : List Char) : M Fragment :=
  if chars.isEmpty then compile_empty
  else
    mBind (literalStates chars) fun fragments =>
    mBind (connectChain fragments) fun _ =>
    match fragments, fragments.getLast? with
    | f0 :: _, some flast => mPure ⟨f0.start, flast.stop⟩
    | _, _ => mErr (.Internal (r"empty literal fragments"))

/-- Total number of code points covered by the ranges of a Unicode class
(the negation heuristic threshold test of `compile_unicode_class`). -/
def classTotal (ranges : List (Char × Char)) : Nat :=
  (ranges.map fun r => r.2.toNat - r.1.toNat + 1).sum

/-- The non-negated part of `Compiler::compile_unicode_class`: ranges
spanning at most 1000 code points get one transition per scalar value;
wider ranges get only four sampled transitions (start, end and two
interior points). -/
def smallClassTransitions (ranges : List (Char × Char)) : List TwoCharTransition :=
  ranges.flatMap fun r =>
    if r.2.toNat - r.1.toNat ≤ 1000 then
      ((List.range' r.1.toNat (r.2.toNat - r.1.toNat + 1)).filterMap charFromU32).map
        fun ch => TwoCharTransition.char ch UNPATCHED
    else
      (([r.1.toNat, r.2.toNat, r.1.toNat + (r.2.toNat - r.1.toNat) / 3,
        r.1.toNat + 2 * (r.2.toNat - r.1.toNat) / 3]).filterMap charFromU32).map
        fun ch => TwoCharTransition.char ch UNPATCHED

/-- Set-insertion into the rejected-character collection (a Rust
`HashSet<char>`, kept here as its insertion-order list). -/
def insertRC (rc : List Char) (c : Char) : List Char :=
  if c ∈ rc then rc else rc ++ [c]

/-- One gap-enumeration loop of `compile_negated_unicode_class`: insert
each valid scalar of the code list, stopping once more than 200
characters are collected (the check runs after every iteration). -/
def rcAdd : List Char → List Nat → List Char
  | rc, [] => rc
  | rc, code :: rest =>
    let rc' :=
      match charFromU32 code with
      | some ch => insertRC rc ch
      | none => rc
    if 200 < rc'.length then rc' else rcAdd rc' rest

/-- The between-ranges loop of `compile_negated_unicode_class` over
consecutive range pairs, with the outer 200-character break. -/
def rcGaps : List Char → List ((Char × Char) × (Char × Char)) → List Char
  | rc, [] => rc
  | rc, p :: rest =>
    let current_end := p.1.2.toNat
    let next_start := p.2.1.toNat
    let rc' :=
      if current_end + 1 < next_start then
        rcAdd rc (List.range' (current_end + 1) (next_start - (current_end + 1)))
      else rc
    if 200 < rc'.length then rc' else rcGaps rc' rest

/-- The rejected-character set of `compile_negated_unicode_class` in
insertion order: the gap below the first range, then the gaps between
consecutive ranges. -/
def rejectedChars (ranges : List (Char × Char)) : List Char :=
  let rc : List Char :=
    match ranges.head? with
    | some first =>
        if 0 < first.1.toNat then rcAdd [] (List.range' 0 first.1.toNat) else []
    | none => []
  rcGaps rc (ranges.zip ranges.tail)

/-- `Compiler::compile_negated_unicode_class`: a shared `Rejected` state,
one rejection transition per collected character (in hash iteration
order, i.e. `o` applied to the insertion-order list), then the
catch-all dot transition. -/
def compile_negated_unicode_class (o : Oracle) (ranges : List (Char × Char)) :
    M (List TwoCharTransition) :=
  mBind (mState fun n => n.rejected_state) fun rejected_state =>
  mPure (((o (rejectedChars ranges)).map fun ch =>
    (⟨some ch, none, rejected_state⟩ : TwoCharTransition)) ++
    [TwoCharTransition.dot UNPATCHED])

/-- `Compiler::compile_unicode_class`. -/
def compile_unicode_class (o : Oracle) (ranges : List (Char × Char)) :
    M (List TwoCharTransition) :=
  if 50000 < classTotal ranges then compile_negated_unicode_class o ranges
  else mPure (smallClassTransitions ranges)

/-- `Compiler::compile_bytes_class`: one transition per byte of every
range, the byte cast to a character. -/
def compile_bytes_class (ranges : List (Nat × Nat)) : M (List TwoCharTransition) :=
  mPure (ranges.flatMap fun r =>
    (List.range' r.1 (r.2 + 1 - r.1)).map fun b =>
      TwoCharTransition.char (byteToChar b) UNPATCHED)

/-- `Compiler::compile_class`: build the transition list for the class
variant, then wrap it in a single `Transitions` state. -/
def compile_class (tm : M (List TwoCharTransition)) : M Fragment :=
  mBind tm fun transitions =>
  mBind (mState fun n => n.transitions_state transitions) fun state_id =>
  mPure ⟨state_id, state_id⟩

/-- The transition rebuild of `augment_with_lookahead` on one
`Transitions` state: one copy of every transition per lookahead
character. -/
def augmentState (chars : List Char) (ts : List TwoCharTransition) :
    List TwoCharTransition :=
  ts.flatMap fun t => chars.map fun lc => { t with lookahead := some lc }

/-- Total out-degree of the graph, used only to bound the
`augment_with_lookahead` worklist. -/
def totalOut (n : NFA) : Nat :=
  (n.states.map fun s =>
    match s with
    | State.Transitions ts => ts.length
    | State.Epsilon _ => 1
    | State.Split targets => targets.length
    | _ => 0).sum

/-- The depth-first worklist of `Compiler::augment_with_lookahead`.  The
head of `stack` is the top (Rust pushes to and pops from the vector
end, so successors are pushed reversed).  Every state is expanded at
most once (the `visited` set), and each expansion pushes at most the
state's original out-degree, so `states.len() + totalOut + 2` units of
fuel strictly dominate the Rust loop; the fuel-exhaustion arm is
unreachable. -/
def augmentGo (chars : List Char) : Nat → List StateId → Finset Nat → NFA → NFA
  | 0, _, _, n => n
  | _ + 1, [], _, n => n
  | fuel + 1, id :: stack, visited, n =>
    if id ∈ visited then augmentGo chars fuel stack visited n
    else
      let visited' := insert id visited
      if n.states.length ≤ id then augmentGo chars fuel stack visited' n
      else
        match n.states.get? id with
        | some (State.Transitions ts) =>
            let pushes := (ts.map fun t => t.target).reverse
            let newTs := if chars.isEmpty then ts else augmentState chars ts
            let n' := { n with states := n.states.set id (State.Transitions newTs) }
            augmentGo chars fuel (pushes ++ stack) visited' n'
        | some (State.Epsilon next) => augmentGo chars fuel (next :: stack) visited' n
        | some (State.Split targets) =>
            augmentGo chars fuel (targets.reverse ++ stack) visited' n
        | _ => augmentGo chars fuel stack visited' n

/-- `Compiler::augment_with_lookahead` (dead code in the crate: its only
caller `compile_with_lookahead` always errors first, see below). -/
def augment_with_lookahead (start_state : StateId) (chars : List Char) : M Unit :=
  mModify fun n => augmentGo chars (n.states.length + totalOut n + 2) [start_state] ∅ n

/-- `Compiler::compile_with_lookahead`.  Note that the Rust code extracts
the lookahead characters before compiling `first`; since every call site
passes a `Look` node as `second`, `extract_lookahead_chars` always
returns `UnsupportedFeature` here. -/
def compile_with_lookahead (rec : Hir → M Fragment) (first second : Hir) : M Fragment :=
  mBind (mOfExcept (extract_lookahead_chars second)) fun lookahead_chars =>
  mBind (rec first) fun base_fragment =>
  mBind (augment_with_lookahead base_fragment.start lookahead_chars) fun _ =>
  mPure base_fragment

/-- `Compiler::add_end_anchor_constraint_to_exits`.  The Rust function
walks the graph from `start` collecting the states that reach `end`,
but then performs no mutation at all and returns `Ok(())` (its comment
calls this a simplified implementation); observationally it is the
identity on the builder. -/
def add_end_anchor_constraint_to_exits (_start _stop : StateId) : M Unit :=
  mPure ()

/-- `Compiler::compile_possessive_with_disjoint_lookahead`. -/
def compile_possessive_with_disjoint_lookahead (rec : Hir → M Fragment)
    (possessive lookahead : Hir) : M Fragment :=
  mBind (rec possessive) fun possessive_fragment =>
  match lookahead with
  | Hir.look l =>
    match l with
    | Look.End | Look.EndLF | Look.EndCRLF =>
        mBind (add_end_anchor_constraint_to_exits possessive_fragment.start
          possessive_fragment.stop) fun _ =>
        mPure possessive_fragment
    | Look.Start | Look.StartLF | Look.StartCRLF =>
        mErr (.UnsupportedFeature (r"start anchors after possessive not supported"))
    | _ =>
        mErr (.UnsupportedFeature
          (r"complex lookarounds after possessive not yet implemented"))
  | _ => mErr (.Internal (r"expected lookahead assertion"))

/-- `Compiler::compile_pair`.  The two final Rust branches (possessive
first element, and the default) have identical bodies: compile the first
element alone and consume one element. -/
def compile_pair (rec : Hir → M Fragment) (first second : Hir) : M (Fragment × Nat) :=
  let first_is_possessive := is_possessive first
  let first_is_lookahead := is_lookahead first
  let second_is_lookahead := is_lookahead second
  if first_is_lookahead then
    mErr (.UnsupportedFeature (r"first element cannot be lookahead"))
  else if second_is_lookahead then
    if first_is_possessive then
      mBind (mOfExcept (is_disjoint_lookahead first second)) fun d =>
      if d then
        mBind (compile_possessive_with_disjoint_lookahead rec first second)
          fun fragment => mPure (fragment, 2)
      else
        mErr (.UnsupportedFeature (r"possessive with overlapping lookahead not supported"))
    else
      mBind (compile_with_lookahead rec first second) fun fragment => mPure (fragment, 2)
  else
    mBind (rec first) fun fragment => mPure (fragment, 1)

/-- The `while i < concat.len()` loop of `Compiler::compile_concat`:
take a pair when two elements remain, a single element otherwise, and
advance by the number of consumed elements. -/
def concatGo (rec : Hir → M Fragment) : List Hir → M (List Fragment)
  | [] => mPure []
  | [a] => mBind (rec a) fun f => mPure [f]
  | a :: b :: rest =>
    mBind (compile_pair rec a b) fun fc =>
    if fc.2 = 2 then
      mBind (concatGo rec rest) fun fs => mPure (fc.1 :: fs)
    else
      mBind (concatGo rec (b :: rest)) fun fs => mPure (fc.1 :: fs)

/-- `Compiler::compile_concat`. -/
def compile_concat (rec : Hir → M Fragment) (concat : List Hir) : M Fragment :=
  match concat with
  | [] => compile_empty
  | [single] => rec single
  | _ :: _ :: _ =>
    mBind (concatGo rec concat) fun fragments =>
    mBind (connectChain fragments) fun _ =>
    match fragments, fragments.getLast? with
    | f0 :: _, some flast => mPure ⟨f0.start, flast.stop⟩
    | _, _ => mErr (.Internal (r"empty concat fragments"))

/-- The fragment-collection loop of `Compiler::compile_alternation`. -/
def altFrags (rec : Hir → M Fragment) : List Hir → M (List Fragment)
  | [] => mPure []
  | h :: rest =>
    mBind (rec h) fun f => mBind (altFrags rec rest) fun fs => mPure (f :: fs)

/-- The `while let Some(fragment) = fragments.pop()` loop of
`compile_alternation`: fold the remaining fragments (in pop order, i.e.
right to left) into nested binary splits. -/
def altGo : List Fragment → Fragment → M Fragment
  | [], result => mPure result
  | fragment :: rest, result =>
    mBind (mState fun n => n.epsilon 0) fun end_state =>
    mBind (mState fun n => n.split [fragment.start, result.start]) fun split_state =>
    mBind (mModify fun n => n.connect fragment.stop end_state) fun _ =>
    mBind (mModify fun n => n.connect result.stop end_state) fun _ =>
    altGo rest ⟨split_state, end_state⟩

/-- `Compiler::compile_alternation`. -/
def compile_alternation (rec : Hir → M Fragment) (alternation : List Hir) : M Fragment :=
  match alternation with
  | [] => compile_empty
  | _ :: _ =>
    mBind (altFrags rec alternation) fun fragments =>
    match fragments.reverse with
    | [] => mErr (.Internal (r"empty alternation fragments"))
    | result :: restRev =>
      match restRev with
      | [] => mPure result
      | _ :: _ => altGo restRev result

/-- `Compiler::compile_question` (the possessive flag is unused by the
Rust body beyond a comment). -/
def compile_question (rec : Hir → M Fragment) (expr : Hir)
    (_possessive reluctant : Bool) : M Fragment :=
  mBind (rec expr) fun expr_fragment =>
  mBind (mState fun n => n.epsilon 0) fun end_state =>
  mBind (mState fun n => n.split
    (if reluctant then [end_state, expr_fragment.start]
     else [expr_fragment.start, end_state])) fun split_state =>
  mBind (mModify fun n => n.connect expr_fragment.stop end_state) fun _ =>
  mPure ⟨split_state, end_state⟩

/-- The loop-and-exit transition pair built by
`compile_possessive_plus` for every pattern character. -/
def possessiveTransitions (pattern_chars : List Char) : List TwoCharTransition :=
  pattern_chars.flatMap fun ch =>
    [TwoCharTransition.char_with_lookahead ch ch UNPATCHED,
     TwoCharTransition.char ch UNPATCHED]

/-- The in-place retargeting of loop transitions in
`compile_possessive_plus`: unpatched transitions carrying a lookahead
are pointed back at the possessive state itself. -/
def retargetLoops (main_state : StateId) (n : NFA) : NFA :=
  match n.states.get? main_state with
  | some (State.Transitions ts) =>
      { n with states := n.states.set main_state (State.Transitions (ts.map fun t =>
          if t.lookahead.isSome && (t.target == UNPATCHED) then
            { t with target := main_state }
          else t)) }
  | _ => n

/-- `Compiler::compile_possessive_plus`. -/
def compile_possessive_plus (expr : Hir) : M Fragment :=
  mBind (mOfExcept (extract_pattern_chars expr)) fun pattern_chars =>
  mBind (mState fun n => n.transitions_state (possessiveTransitions pattern_chars))
    fun main_state =>
  mBind (mModify (retargetLoops main_state)) fun _ =>
  mBind (mState fun n => n.epsilon UNPATCHED) fun end_state =>
  mBind (mModify fun n => n.connect main_state end_state) fun _ =>
  mPure ⟨main_state, end_state⟩

/-- `Compiler::compile_possessive_star`. -/
def compile_possessive_star (expr : Hir) : M Fragment :=
  mBind (compile_possessive_plus expr) fun possessive_plus =>
  mBind (mState fun n => n.epsilon UNPATCHED) fun end_state =>
  mBind (mState fun n => n.split [possessive_plus.start, end_state]) fun start_state =>
  mBind (mModify fun n => n.connect possessive_plus.stop end_state) fun _ =>
  mPure ⟨start_state, end_state⟩

/-- `Compiler::compile_star`. -/
def compile_star (rec : Hir → M Fragment) (expr : Hir)
    (possessive reluctant : Bool) : M Fragment :=
  if possessive then compile_possessive_star expr
  else
    mBind (rec expr) fun expr_fragment =>
    mBind (mState fun n => n.epsilon 0) fun end_state =>
    mBind (mState fun n => n.split
      (if reluctant then [end_state, expr_fragment.start]
       else [expr_fragment.start, end_state])) fun start_state =>
    mBind (mModify fun n => n.connect expr_fragment.stop start_state) fun _ =>
    mPure ⟨start_state, end_state⟩

/-- `Compiler::compile_plus`. -/
def compile_plus (rec : Hir → M Fragment) (expr : Hir)
    (possessive reluctant : Bool) : M Fragment :=
  if possessive then compile_possessive_plus expr
  else
    mBind (rec expr) fun expr_fragment =>
    mBind (mState fun n => n.epsilon 0) fun end_state =>
    mBind (mState fun n => n.split
      (if reluctant then [end_state, expr_fragment.start]
       else [expr_fragment.start, end_state])) fun loop_state =>
    mBind (mModify fun n => n.connect expr_fragment.stop loop_state) fun _ =>
    mPure ⟨expr_fragment.start, end_state⟩

/-- The `for _ in ..` fragment collection loops of
`compile_counted`: `k` fresh compilations of `expr`, in order. -/
def copies (rec : Hir → M Fragment) (expr : Hir) : Nat → M (List Fragment)
  | 0 => mPure []
  | k + 1 =>
    mBind (rec expr) fun f => mBind (copies rec expr k) fun fs => mPure (f :: fs)

/-- The bounded optional-copies loop of `compile_counted`: a `Split`
between entering the next optional copy and exiting, chained through
`current_end`, with the final `connect(current_end, end_state)`. -/
def countedOptional : List Fragment → StateId → StateId → M Unit
  | [], current_end, end_state => mModify fun n => n.connect current_end end_state
  | f :: rest, current_end, end_state =>
    mBind (mState fun n => n.split [f.start, end_state]) fun split =>
    mBind (mModify fun n => n.connect current_end split) fun _ =>
    countedOptional rest f.stop end_state

/-- `Compiler::compile_counted`.  `fragments.getD` stands for the Rust
unchecked indexing `fragments[min-1]`, in range because the required
loop contributed `min` fragments. -/
def compile_counted (rec : Hir → M Fragment) (expr : Hir) (min : Nat)
    (max : Option Nat) (_possessive : Bool) : M Fragment :=
  mBind (copies rec expr min) fun required =>
  mBind (match max with
         | some m => copies rec expr (m - min)
         | none => mPure []) fun optional =>
  let fragments := required ++ optional
  match fragments with
  | [] => compile_empty
  | f0 :: _ =>
    mBind (connectChain (fragments.take min)) fun _ =>
    mBind (mState fun n => n.epsilon 0) fun end_state =>
    let start := f0.start
    match max with
    | some _ =>
      let current_end :=
        if 0 < min then (fragments.getD (min - 1) ⟨0, 0⟩).stop else start
      mBind (countedOptional (fragments.drop min) current_end end_state) fun _ =>
      mPure ⟨start, end_state⟩
    | none =>
      let last_required :=
        if 0 < min then (fragments.getD (min - 1) ⟨0, 0⟩).stop else start
      mBind (rec expr) fun loop_expr =>
      mBind (mState fun n => n.split [loop_expr.start, end_state]) fun split =>
      mBind (mModify fun n => n.connect last_required split) fun _ =>
      mBind (mModify fun n => n.connect loop_expr.stop split) fun _ =>
      mPure ⟨start, end_state⟩

/-- `Compiler::compile_repetition`. -/
def compile_repetition (rec : Hir → M Fragment) (min : Nat) (max : Option Nat)
    (kind : RepetitionKind) (sub : Hir) : M Fragment :=
  let possessive := kind == RepetitionKind.Possessive
  let reluctant := kind == RepetitionKind.Reluctant
  match min, max with
  | 0, some 1 => compile_question rec sub possessive reluctant
  | 0, none => compile_star rec sub possessive reluctant
  | 1, none => compile_plus rec sub possessive reluctant
  | _, _ => compile_counted rec sub min max possessive

mutual

/-- Depth of a HIR tree. -/
def hirFuel : Hir → Nat
  | Hir.repetition _ _ _ sub => hirFuel sub + 1
  | Hir.capture sub => hirFuel sub + 1
  | Hir.concat subs => hirFuelList subs + 1
  | Hir.alternation subs => hirFuelList subs + 1
  | _ => 1

/-- Maximal depth among a list of HIR trees. -/
def hirFuelList : List Hir → Nat
  | [] => 0
  | h :: rest => max (hirFuel h) (hirFuelList rest)

end

/-- `Compiler::compile_hir`, with an explicit bound on the recursion
depth.  The Rust recursion is structural on the HIR tree, so any fuel at
least the tree depth makes the first arm unreachable; `compile` passes
`hirFuel h`, the depth itself. -/
def compileHirF (o : Oracle) : Nat → Hir → M Fragment
  | 0, _ => mErr (.Internal (r"recursion fuel exhausted"))
  | fuel + 1, h =>
    match h with
    | Hir.empty => compile_empty
    | Hir.literal chars => compile_literal chars
    | Hir.classU ranges => compile_class (compile_unicode_class o ranges)
    | Hir.classB ranges => compile_class (compile_bytes_class ranges)
    | Hir.look _ => mErr (.UnsupportedFeature (r"lookarounds not yet implemented"))
    | Hir.repetition min max kind sub =>
        compile_repetition (compileHirF o fuel) min max kind sub
    | Hir.capture sub => compileHirF o fuel sub
    | Hir.concat subs => compile_concat (compileHirF o fuel) subs
    | Hir.alternation subs => compile_alternation (compileHirF o fuel) subs

/-- `Compiler::compile`: compile the HIR to a fragment from a fresh
builder, set the start state, append the single `Match` state and
connect the fragment exit to it. -/
def compile (o : Oracle) (h : Hir) : Except CompileError NFA :=
  match compileHirF o (hirFuel h) h NFA.new with
  | Except.error e => Except.error e
  | Except.ok (fragment, n1) =>
    let n2 := { n1 with start := fragment.start }
    let p := n2.match_state
    Except.ok (p.2.connect fragment.stop p.1)

/-! ## Epsilon closure is a closure operator (claim C9) -/

theorem subset_closureStep (n : NFA) (S : Finset Nat) : S ⊆ n.closureStep S :=
  Finset.subset_union_left

theorem closureStep_mono (n : NFA) {S T : Finset Nat} (h : S ⊆ T) :
    n.closureStep S ⊆ n.closureStep T :=
  Finset.union_subset_union h (Finset.biUnion_subset_biUnion_of_subset_left _ h)

theorem subset_iterate_closureStep (n : NFA) (S : Finset Nat) (k : Nat) :
    S ⊆ (n.closureStep)^[k] S := by
  induction k with
  | zero => simp
  | succ k ih =>
      rw [Function.iterate_succ_apply']
      exact ih.trans (subset_closureStep n _)

theorem epsSucc_eq_empty_of_ge (n : NFA) {id : Nat} (h : n.states.length ≤ id) :
    n.epsSucc id = ∅ := by
  unfold NFA.epsSucc
  rw [List.get?_eq_none.mpr h]

theorem biUnion_epsSucc_filter (n : NFA) (X : Finset Nat) :
    X.biUnion n.epsSucc = (X.filter fun i => i < n.states.length).biUnion n.epsSucc := by
  ext a
  simp only [Finset.mem_biUnion, Finset.mem_filter]
  constructor
  · rintro ⟨i, hi, ha⟩
    refine ⟨i, ⟨hi, ?_⟩, ha⟩
    by_contra hge
    rw [epsSucc_eq_empty_of_ge n (Nat.le_of_not_lt hge)] at ha
    exact absurd ha (Finset.not_mem_empty a)
  · rintro ⟨i, ⟨hi, _⟩, ha⟩
    exact ⟨i, hi, ha⟩

theorem closureStep_fix_of_filter_eq (n : NFA) {X : Finset Nat}
    (h : ((n.closureStep X).filter fun i => i < n.states.length) =
      (X.filter fun i => i < n.states.length)) :
    n.closureStep (n.closureStep X) = n.closureStep X := by
  have hb : (n.closureStep X).biUnion n.epsSucc = X.biUnion n.epsSucc := by
    rw [biUnion_epsSucc_filter n (n.closureStep X), h, ← biUnion_epsSucc_filter]
  show n.closureStep X ∪ (n.closureStep X).biUnion n.epsSucc = n.closureStep X
  rw [hb]
  exact Finset.union_eq_left.mpr ((Finset.subset_union_right).trans (le_of_eq rfl))

theorem filter_card_le (n : NFA) (X : Finset Nat) :
    (X.filter fun i => i < n.states.length).card ≤ n.states.length := by
  have hsub : (X.filter fun i => i < n.states.length) ⊆ Finset.range n.states.length := by
    intro a ha
    rw [Finset.mem_range]
    exact (Finset.mem_filter.mp ha).2
  simpa using Finset.card_le_card hsub

theorem closureStep_iterate_fix (n : NFA) (S : Finset Nat) :
    n.closureStep (n.epsilon_closure S) = n.epsilon_closure S := by
  -- Some step before states.length strictly fails to enlarge the in-range part.
  have key : ∃ j ≤ n.states.length,
      (((n.closureStep)^[j + 1] S).filter fun i => i < n.states.length) =
      (((n.closureStep)^[j] S).filter fun i => i < n.states.length) := by
    by_contra hno
    push_neg at hno
    have hchain : ∀ j, j ≤ n.states.length + 1 →
        j ≤ (((n.closureStep)^[j] S).filter fun i => i < n.states.length).card := by
      intro j
      induction j with
      | zero => intro _; exact Nat.zero_le _
      | succ j ih =>
          intro hj
          have hj' : j ≤ n.states.length := Nat.lt_succ_iff.mp hj
          have hmono : (((n.closureStep)^[j] S).filter fun i => i < n.states.length) ⊆
              (((n.closureStep)^[j + 1] S).filter fun i => i < n.states.length) := by
            apply Finset.filter_subset_filter
            rw [Function.iterate_succ_apply']
            exact subset_closureStep n _
          have hne := hno j hj'
          have hlt := Finset.card_lt_card (Finset.ssubset_iff_subset_ne.mpr ⟨hmono, (Ne.symm hne)⟩)
          have := ih (Nat.le_of_lt hj)
          omega
    have hbig := hchain (n.states.length + 1) (le_refl _)
    have hsmall := filter_card_le n ((n.closureStep)^[n.states.length + 1] S)
    omega
  obtain ⟨j, hj, hfix⟩ := key
  rw [Function.iterate_succ_apply'] at hfix
  have hfix2 : n.closureStep (n.closureStep ((n.closureStep)^[j] S)) =
      n.closureStep ((n.closureStep)^[j] S) := closureStep_fix_of_filter_eq n hfix
  -- The iterate stabilises from step j + 1 on.
  have hstable : (n.closureStep)^[n.states.length + 1] S = (n.closureStep)^[j + 1] S := by
    have hsplit : n.states.length + 1 = (n.states.length - j) + (j + 1) := by omega
    rw [hsplit, Function.iterate_add_apply]
    apply Function.iterate_fixed
    rw [Function.iterate_succ_apply']
    exact hfix2
  show n.closureStep ((n.closureStep)^[n.states.length + 1] S) =
    (n.closureStep)^[n.states.length + 1] S
  rw [hstable, Function.iterate_succ_apply']
  exact hfix2

/-- Claim C9: `NFA::epsilon_closure` is a closure operator.  For every NFA
and every set `S` of state ids — including ids out of range of `states`,
which the worklist skips rather than faulting — `S` is contained in its
epsilon closure, and the closure is idempotent. -/
theorem epsilon_closure_is_closure_operator (n : NFA) (S : Finset Nat) :
    S ⊆ n.epsilon_closure S ∧
      n.epsilon_closure (n.epsilon_closure S) = n.epsilon_closure S := by
  constructor
  · exact subset_iterate_closureStep n S (n.states.length + 1)
  · show (n.closureStep)^[n.states.length + 1] (n.epsilon_closure S) = n.epsilon_closure S
    exact Function.iterate_fixed (closureStep_iterate_fix n S) _

/-! ## Matcher lemmas (claims C6, C8, C10) -/

theorem findFrom_eq_some {n : NFA} {chars : List Char} :
    ∀ {fuel start : Nat} {r : MatchResult}, findFrom n chars fuel start = some r →
      start ≤ r.start ∧ r.start ≤ chars.length ∧
        match_at n chars r.start = some r.stop ∧ r.matched = true := by
  intro fuel
  induction fuel with
  | zero => intro start r h; simp [findFrom] at h
  | succ fuel ih =>
      intro start r h
      simp only [findFrom] at h
      split at h
      case isTrue hle =>
        cases hm : match_at n chars start with
        | some e =>
            rw [hm] at h
            cases h
            exact ⟨le_refl _, hle, hm, rfl⟩
        | none =>
            rw [hm] at h
            obtain ⟨h1, h2, h3, h4⟩ := ih h
            exact ⟨Nat.le_of_succ_le h1, h2, h3, h4⟩
      case isFalse => exact Option.noConfusion h

theorem matchLoop_le {n : NFA} {chars : List Char} :
    ∀ {fuel position : Nat} {cs : Finset Nat} {e : Nat}, position ≤ chars.length →
      matchLoop n chars fuel position cs = some e →
      position ≤ e ∧ e ≤ chars.length := by
  intro fuel
  induction fuel with
  | zero =>
      intro position cs e hp h
      simp only [matchLoop] at h
      split at h
      · cases h; exact ⟨le_refl _, hp⟩
      · exact Option.noConfusion h
  | succ fuel ih =>
      intro position cs e hp h
      simp only [matchLoop] at h
      split at h
      case isTrue hcond =>
        have hp1 : position + 1 ≤ chars.length := hcond.1
        repeat' split at h
        all_goals
          first
            | (cases h; exact ⟨le_refl _, hp⟩)
            | (cases h; exact ⟨Nat.le_succ _, hp1⟩)
            | (exact Option.noConfusion h)
            | (obtain ⟨h1, h2⟩ := ih hp1 h; exact ⟨Nat.le_of_succ_le h1, h2⟩)
      case isFalse =>
        split at h
        · cases h; exact ⟨le_refl _, hp⟩
        · exact Option.noConfusion h

theorem match_at_le {n : NFA} {chars : List Char} {start e : Nat}
    (hs : start ≤ chars.length) (h : match_at n chars start = some e) :
    start ≤ e ∧ e ≤ chars.length := by
  simp only [match_at] at h
  split at h
  · cases h; exact ⟨le_refl _, hs⟩
  · exact matchLoop_le hs h

/-- Claim C6: for every compiled NFA (indeed for every NFA value) and
every input, `is_match` returns `true` exactly when `find` returns a
match starting at 0 and ending at the input length. -/
theorem is_match_iff_find_full (n : NFA) (chars : List Char) :
    is_match n chars = true ↔
      ∃ r, find n chars = some r ∧ r.start = 0 ∧ r.stop = chars.length := by
  constructor
  · intro h
    have hm : match_at n chars 0 = some chars.length := by
      simpa [is_match] using h
    refine ⟨⟨true, 0, chars.length⟩, ?_, rfl, rfl⟩
    simp [find, findFrom, hm]
  · rintro ⟨r, hf, h0, hl⟩
    have hform := findFrom_eq_some (show findFrom n chars (chars.length + 1) 0 = some r from hf)
    have hm : match_at n chars r.start = some r.stop := hform.2.2.1
    rw [h0, hl] at hm
    simp [is_match, hm]

theorem findAllFrom_mem {n : NFA} {chars : List Char} :
    ∀ {fuel start : Nat} {r : MatchResult}, r ∈ findAllFrom n chars fuel start →
      r.start < chars.length ∧ match_at n chars r.start = some r.stop := by
  intro fuel
  induction fuel with
  | zero => intro start r h; simp [findAllFrom] at h
  | succ fuel ih =>
      intro start r h
      simp only [findAllFrom] at h
      split at h
      case isTrue hlt =>
        cases hm : match_at n chars start with
        | some e =>
            rw [hm] at h
            rcases List.mem_cons.mp h with heq | htail
            · subst heq; exact ⟨hlt, hm⟩
            · exact ih htail
        | none =>
            rw [hm] at h
            exact ih h
      case isFalse => exact absurd h (List.not_mem_nil r)

/-- Claim C8: every match reported by `find` satisfies
`start ≤ end ≤ chars.length`, and so does every match reported by
`find_all`. -/
theorem find_bounds (n : NFA) (chars : List Char) :
    (∀ r, find n chars = some r → r.start ≤ r.stop ∧ r.stop ≤ chars.length) ∧
      (∀ r ∈ find_all n chars, r.start ≤ r.stop ∧ r.stop ≤ chars.length) := by
  constructor
  · intro r h
    obtain ⟨-, hle, hm, -⟩ := findFrom_eq_some h
    exact match_at_le hle hm
  · intro r h
    obtain ⟨hlt, hm⟩ := findAllFrom_mem h
    exact match_at_le (Nat.le_of_lt hlt) hm

/-- A concrete NFA accepting exactly the single character a (the result
of compiling the literal a), used to witness theorems with hypotheses. -/
def nfaLitA : NFA :=
  ⟨[State.Transitions [⟨some 'a', none, 1⟩], State.Match], 0, {1}, 2⟩

theorem find_bounds_witness :
    (⟨true, 0, 1⟩ : MatchResult).start ≤ (⟨true, 0, 1⟩ : MatchResult).stop ∧
      (⟨true, 0, 1⟩ : MatchResult).stop ≤ (['a'] : List Char).length :=
  (find_bounds nfaLitA ['a']).1 ⟨true, 0, 1⟩ (by decide)

/-- The NFA compiled from the empty HIR (accepts the empty string). -/
def nfaEmptyPat : NFA := ⟨[State.Epsilon 1, State.Match], 0, {1}, 2⟩

/-- Claim C10: `find_all` only attempts matches strictly before the end
of the input, so on the empty input it returns the empty list for every
NFA — even for an NFA that accepts the empty string, where `find`
reports the empty match at 0 (witnessed by the compiled empty
pattern). -/
theorem find_all_empty_input :
    (∀ n : NFA, find_all n ([] : List Char) = []) ∧
      ∃ n, compile ordId Hir.empty = Except.ok n ∧
        find n ([] : List Char) = some ⟨true, 0, 0⟩ ∧
        find_all n ([] : List Char) = [] := by
  refine ⟨fun n => rfl, ⟨nfaEmptyPat, by decide, by decide, by decide⟩⟩

/-! ## Concrete patterns for the end-to-end claims -/

/-- HIR of the literal `a`. -/
def hirLitA : Hir := Hir.literal ['a']

/-- HIR of the literal `ab`. -/
def hirLitAB : Hir := Hir.literal ['a', 'b']

/-- HIR of the pattern `a++ab` (possessive plus, then literal `ab`). -/
def hirPossessivePlusAB : Hir :=
  Hir.concat [Hir.repetition 1 none RepetitionKind.Possessive hirLitA, hirLitAB]

/-- HIR of the pattern `a+ab` (greedy plus, then literal `ab`). -/
def hirPlusAB : Hir :=
  Hir.concat [Hir.repetition 1 none RepetitionKind.Greedy hirLitA, hirLitAB]

/-- HIR of the pattern `a*`. -/
def hirStarA : Hir := Hir.repetition 0 none RepetitionKind.Greedy hirLitA

/-- HIR of the pattern `a++$` (possessive plus, then end anchor). -/
def hirPossessivePlusEnd : Hir :=
  Hir.concat [Hir.repetition 1 none RepetitionKind.Possessive hirLitA, Hir.look Look.End]

/-- Claim C1 (code bug, evaluated at the failing input): the exit
transition built by `compile_possessive_plus` carries no lookahead, so
it fires even when the next character would continue the possessive
run; contrary to the spec scenario S5 and to the function's own
comment (exit iff the next char does not match), the NFA for `a++ab`
does match `aaab` over the whole input, exactly like `a+ab`. -/
theorem possessive_plus_exit_unconstrained :
    (compile ordId hirPossessivePlusAB).toOption.map
        (fun n => (is_match n ['a', 'a', 'a', 'b'], find n ['a', 'a', 'a', 'b'])) =
      some (true, some ⟨true, 0, 4⟩) ∧
    (compile ordId hirPlusAB).toOption.map
        (fun n => (is_match n ['a', 'a', 'a', 'b'], find n ['a', 'a', 'a', 'b'])) =
      some (true, some ⟨true, 0, 4⟩) := by
  decide

/-- Counterexample to claim C2 as stated: `match_at` returns as soon as
an accepting state is seen, so for `a*` on `aaa` the match found is the
empty one at position 0, not `[0, 3)`, and `is_match` is `false`. -/
theorem star_longest_counterexample :
    (compile ordId hirStarA).toOption.map
        (fun n => (is_match n ['a', 'a', 'a'], find n ['a', 'a', 'a'])) =
      some (false, some ⟨true, 0, 0⟩) := by
  decide

/-- Claim C2 as amended: for the pattern `a*`, `find` on `aaa` reports
the shortest match `[0, 0)` (hence `is_match` of `aaa` is `false`), and
`find` on the empty input reports `[0, 0)`. -/
theorem star_find_shortest :
    (compile ordId hirStarA).toOption.map
        (fun n => (find n ['a', 'a', 'a'], is_match n ['a', 'a', 'a'], find n [])) =
      some (some ⟨true, 0, 0⟩, false, some ⟨true, 0, 0⟩) := by
  decide

/-- Claim C3 (code bug, evaluated at the failing input):
`add_end_anchor_constraint_to_exits` performs no mutation, so no
lookahead predicate is fused into the possessive exits: the NFA
compiled for `a++$` is identical to the NFA compiled for plain `a++`,
and `find` on `ab` reports the match `[0, 1)` inside the input even
though the pattern requires end of input after the run. -/
theorem possessive_end_anchor_unenforced :
    compile ordId hirPossessivePlusEnd =
      compile ordId (Hir.repetition 1 none RepetitionKind.Possessive hirLitA) ∧
    (compile ordId hirPossessivePlusEnd).toOption.map
        (fun n => (find n ['a', 'b'], is_match n ['a', 'b'])) =
      some (some ⟨true, 0, 1⟩, false) := by
  decide

/-- A Unicode class with the single range from `a` spanning 1501 code
points (width 1500 > 1000), small enough in total to avoid the
negated-class heuristic. -/
def cls1500 : List (Char × Char) := [('a', Char.ofNat 1597)]

/-- Counterexample to claim C4 as stated: the symbol `b` lies inside the
accepted range of `cls1500`, but the compiler samples only four symbols
from a range wider than 1000 code points (it does not switch to a
predicate form), so no transition of the resulting state matches `b`
and the compiled NFA rejects `b`. -/
theorem large_range_sampled_counterexample :
    ('a'.toNat ≤ 'b'.toNat ∧ 'b'.toNat ≤ (Char.ofNat 1597).toNat) ∧
    compile_unicode_class ordId cls1500 NFA.new =
      Except.ok (smallClassTransitions cls1500, NFA.new) ∧
    ((smallClassTransitions cls1500).all fun t => ! predMatches t.current 'b') = true ∧
    (compile ordId (Hir.classU cls1500)).toOption.map (fun n => is_match n ['b']) =
      some false := by
  decide

/-- The Unicode class produced by negating `[ab]` (total cardinality far
above 50,000): the negated-class heuristic collects the gap characters
`a`, `b` into a hash set and iterates it. -/
def hirNegAB : Hir :=
  Hir.classU [(Char.ofNat 0, Char.ofNat 0x60), (Char.ofNat 0x63, Char.ofNat 0x10FFFF)]

/-- `char::from_u32` of the scalar value of a `char` is that `char`. -/
theorem charFromU32_toNat (c : Char) : charFromU32 c.toNat = some c := by
  have hv : c.toNat.isValidChar := c.valid
  unfold charFromU32
  rw [dif_pos hv]
  have h1 : Char.ofNat c.toNat = Char.ofNatAux c.toNat hv := by
    unfold Char.ofNat
    exact dif_pos hv
  rw [← h1, Char.ofNat_toNat]

/-- Claim C4 as amended: for a Unicode class under the negation
threshold (total cardinality at most 50,000) all of whose ranges span at
most 1000 code points, `compile_unicode_class` enumerates one transition
per accepted symbol, so every scalar value inside some range of the
class is matched by a transition of the resulting list — independently
of the hash-order oracle and of the builder state.  (Ranges wider than
1000 code points are instead approximated by four sampled symbols, see
the counterexample.) -/
theorem small_class_ranges_complete (o : Oracle) (ranges : List (Char × Char)) (n : NFA)
    (hw : ∀ r ∈ ranges, r.2.toNat - r.1.toNat ≤ 1000)
    (ht : classTotal ranges ≤ 50000)
    (c : Char) (r : Char × Char) (hr : r ∈ ranges)
    (hc1 : r.1.toNat ≤ c.toNat) (hc2 : c.toNat ≤ r.2.toNat) :
    compile_unicode_class o ranges n = Except.ok (smallClassTransitions ranges, n) ∧
      ∃ t ∈ smallClassTransitions ranges, t.current = some c := by
  constructor
  · unfold compile_unicode_class
    rw [if_neg (by omega)]
    rfl
  · refine ⟨TwoCharTransition.char c UNPATCHED, ?_, rfl⟩
    unfold smallClassTransitions
    rw [List.mem_flatMap]
    refine ⟨r, hr, ?_⟩
    rw [if_pos (hw r hr), List.mem_map]
    refine ⟨c, ?_, rfl⟩
    rw [List.mem_filterMap]
    refine ⟨c.toNat, ?_, charFromU32_toNat c⟩
    rw [List.mem_range'_1]
    omega

theorem small_class_ranges_complete_witness :
    compile_unicode_class ordId [(('a' : Char), ('c' : Char))] NFA.new =
      Except.ok (smallClassTransitions [(('a' : Char), ('c' : Char))], NFA.new) ∧
      ∃ t ∈ smallClassTransitions [(('a' : Char), ('c' : Char))], t.current = some 'b' :=
  small_class_ranges_complete ordId [(('a' : Char), ('c' : Char))] NFA.new
    (by decide) (by decide) 'b' ('a', 'c') (by decide) (by decide) (by decide)

/-- Counterexample to claim C5 as stated: the order of the rejection
transitions inside the negated-class state is the iteration order of a
Rust `HashSet<char>`, which is not a function of the HIR; under two
possible iteration orders the same HIR compiles to structurally
different NFAs (the state vectors differ in the order of transitions). -/
theorem compile_hash_order_counterexample :
    compile ordId hirNegAB ≠ compile ordRev hirNegAB := by
  decide

/-! ## Claim C5, amended: the compiler depends on the oracle only through
big classes -/

mutual

/-- Does the HIR contain a Unicode class whose total range cardinality
exceeds the 50,000 negation-heuristic threshold?  Only such classes take
the `compile_negated_unicode_class` path, the single consumer of the
hash-order oracle. -/
def hasBigClass : Hir → Bool
  | Hir.classU ranges => decide (50000 < classTotal ranges)
  | Hir.repetition _ _ _ sub => hasBigClass sub
  | Hir.capture sub => hasBigClass sub
  | Hir.concat subs => hasBigClassList subs
  | Hir.alternation subs => hasBigClassList subs
  | _ => false

/-- `hasBigClass` over a list of children. -/
def hasBigClassList : List Hir → Bool
  | [] => false
  | h :: rest => hasBigClass h || hasBigClassList rest

end

theorem hasBigClassList_false : ∀ {l : List Hir}, hasBigClassList l = false →
    ∀ x ∈ l, hasBigClass x = false
  | [], _, x, hx => absurd hx (List.not_mem_nil x)
  | a :: rest, h, x, hx => by
      rw [show hasBigClassList (a :: rest) = (hasBigClass a || hasBigClassList rest) from rfl,
        Bool.or_eq_false_iff] at h
      rcases List.mem_cons.mp hx with rfl | hx'
      · exact h.1
      · exact hasBigClassList_false h.2 x hx'

theorem compile_possessive_with_disjoint_lookahead_congr {rec1 rec2 : Hir → M Fragment}
    {first : Hir} (ha : rec1 first = rec2 first) (second : Hir) :
    compile_possessive_with_disjoint_lookahead rec1 first second =
      compile_possessive_with_disjoint_lookahead rec2 first second := by
  unfold compile_possessive_with_disjoint_lookahead
  rw [ha]

theorem compile_with_lookahead_congr {rec1 rec2 : Hir → M Fragment}
    {first : Hir} (ha : rec1 first = rec2 first) (second : Hir) :
    compile_with_lookahead rec1 first second = compile_with_lookahead rec2 first second := by
  unfold compile_with_lookahead
  rw [ha]

theorem compile_pair_congr {rec1 rec2 : Hir → M Fragment} {first : Hir}
    (ha : rec1 first = rec2 first) (second : Hir) :
    compile_pair rec1 first second = compile_pair rec2 first second := by
  unfold compile_pair
  rw [compile_possessive_with_disjoint_lookahead_congr ha second,
    compile_with_lookahead_congr ha second, ha]

theorem concatGo_congr {rec1 rec2 : Hir → M Fragment} :
    ∀ (l : List Hir), (∀ x ∈ l, rec1 x = rec2 x) → concatGo rec1 l = concatGo rec2 l
  | [], _ => rfl
  | [a], h => by
      unfold concatGo
      rw [h a (List.mem_singleton.mpr rfl)]
  | a :: b :: rest, h => by
      unfold concatGo
      rw [compile_pair_congr (h a (by simp)) b,
        concatGo_congr rest (fun x hx => h x (by simp [hx])),
        concatGo_congr (b :: rest) (fun x hx => h x (by simp at hx; simp [hx]))]

theorem compile_concat_congr {rec1 rec2 : Hir → M Fragment} :
    ∀ (l : List Hir), (∀ x ∈ l, rec1 x = rec2 x) →
      compile_concat rec1 l = compile_concat rec2 l
  | [], _ => rfl
  | [a], h => h a (List.mem_singleton.mpr rfl)
  | a :: b :: rest, h => by
      unfold compile_concat
      rw [concatGo_congr (a :: b :: rest) h]

theorem altFrags_congr {rec1 rec2 : Hir → M Fragment} :
    ∀ (l : List Hir), (∀ x ∈ l, rec1 x = rec2 x) → altFrags rec1 l = altFrags rec2 l
  | [], _ => rfl
  | a :: rest, h => by
      unfold altFrags
      rw [h a (by simp), altFrags_congr rest (fun x hx => h x (by simp [hx]))]

theorem compile_alternation_congr {rec1 rec2 : Hir → M Fragment}
    (l : List Hir) (h : ∀ x ∈ l, rec1 x = rec2 x) :
    compile_alternation rec1 l = compile_alternation rec2 l := by
  cases l with
  | nil => rfl
  | cons a rest =>
      unfold compile_alternation
      rw [altFrags_congr (a :: rest) h]

theorem compile_question_congr {rec1 rec2 : Hir → M Fragment} {expr : Hir}
    (ha : rec1 expr = rec2 expr) (p q : Bool) :
    compile_question rec1 expr p q = compile_question rec2 expr p q := by
  unfold compile_question
  rw [ha]

theorem compile_star_congr {rec1 rec2 : Hir → M Fragment} {expr : Hir}
    (ha : rec1 expr = rec2 expr) (p q : Bool) :
    compile_star rec1 expr p q = compile_star rec2 expr p q := by
  unfold compile_star
  rw [ha]

theorem compile_plus_congr {rec1 rec2 : Hir → M Fragment} {expr : Hir}
    (ha : rec1 expr = rec2 expr) (p q : Bool) :
    compile_plus rec1 expr p q = compile_plus rec2 expr p q := by
  unfold compile_plus
  rw [ha]

theorem copies_congr {rec1 rec2 : Hir → M Fragment} {expr : Hir}
    (ha : rec1 expr = rec2 expr) : ∀ k, copies rec1 expr k = copies rec2 expr k
  | 0 => rfl
  | k + 1 => by
      unfold copies
      rw [ha, copies_congr ha k]

theorem compile_counted_congr {rec1 rec2 : Hir → M Fragment} {expr : Hir}
    (ha : rec1 expr = rec2 expr) (min : Nat) (max : Option Nat) (p : Bool) :
    compile_counted rec1 expr min max p = compile_counted rec2 expr min max p := by
  unfold compile_counted
  simp only [ha, copies_congr ha]

theorem compile_repetition_congr {rec1 rec2 : Hir → M Fragment} {sub : Hir}
    (ha : rec1 sub = rec2 sub) (min : Nat) (max : Option Nat) (kind : RepetitionKind) :
    compile_repetition rec1 min max kind sub = compile_repetition rec2 min max kind sub := by
  unfold compile_repetition
  split
  · exact compile_question_congr ha _ _
  · exact compile_star_congr ha _ _
  · exact compile_plus_congr ha _ _
  · exact compile_counted_congr ha _ _ _

theorem compileHirF_oracle_eq (o1 o2 : Oracle) :
    ∀ (fuel : Nat) (h : Hir), hasBigClass h = false →
      compileHirF o1 fuel h = compileHirF o2 fuel h
  | 0, _, _ => rfl
  | fuel + 1, Hir.empty, _ => rfl
  | fuel + 1, Hir.literal chars, _ => rfl
  | fuel + 1, Hir.classB ranges, _ => rfl
  | fuel + 1, Hir.look l, _ => rfl
  | fuel + 1, Hir.classU ranges, hb => by
      have hno : ¬ 50000 < classTotal ranges := by
        simpa [hasBigClass] using hb
      show compile_class (compile_unicode_class o1 ranges) =
        compile_class (compile_unicode_class o2 ranges)
      unfold compile_unicode_class
      rw [if_neg hno, if_neg hno]
  | fuel + 1, Hir.repetition min max kind sub, hb => by
      show compile_repetition (compileHirF o1 fuel) min max kind sub =
        compile_repetition (compileHirF o2 fuel) min max kind sub
      exact compile_repetition_congr
        (compileHirF_oracle_eq o1 o2 fuel sub (by simpa [hasBigClass] using hb)) min max kind
  | fuel + 1, Hir.capture sub, hb =>
      compileHirF_oracle_eq o1 o2 fuel sub (by simpa [hasBigClass] using hb)
  | fuel + 1, Hir.concat subs, hb => by
      show compile_concat (compileHirF o1 fuel) subs = compile_concat (compileHirF o2 fuel) subs
      exact compile_concat_congr subs fun x hx =>
        compileHirF_oracle_eq o1 o2 fuel x
          (hasBigClassList_false (by simpa [hasBigClass] using hb) x hx)
  | fuel + 1, Hir.alternation subs, hb => by
      show compile_alternation (compileHirF o1 fuel) subs =
        compile_alternation (compileHirF o2 fuel) subs
      exact compile_alternation_congr subs fun x hx =>
        compileHirF_oracle_eq o1 o2 fuel x
          (hasBigClassList_false (by simpa [hasBigClass] using hb) x hx)

/-- Claim C5 as amended: `compile` is a pure function of the HIR and the
hash-set iteration order used by the negated-class lowering, so two
compiles of the same HIR yield structurally equal NFAs whenever the HIR
contains no Unicode class above the 50,000-symbol negation threshold
(only such classes consume the iteration order); for HIRs with such a
class the two NFAs can differ in the order of the rejection transitions
inside the negated-class state. -/
theorem compile_deterministic_no_big_class (o1 o2 : Oracle) (h : Hir)
    (hb : hasBigClass h = false) : compile o1 h = compile o2 h := by
  unfold compile
  rw [compileHirF_oracle_eq o1 o2 (hirFuel h) h hb]

theorem compile_deterministic_no_big_class_witness :
    compile ordId hirPlusAB = compile ordRev hirPlusAB :=
  compile_deterministic_no_big_class ordId ordRev hirPlusAB (by decide)

/-! ## Claim C7: `accepting` is exactly the set of `Match` states

The compiler helpers never create a `Match` state and never touch
`accepting` (both happen only in `compile` itself, through
`match_state`); `connect` and the in-place transition rewrites never
change a state's variant.  `MatchPres n n'` captures exactly that, and
is threaded through every compiler operation. -/

def MatchPres (n n' : NFA) : Prop :=
  n'.accepting = n.accepting ∧
  (∀ i, n'.states.get? i = some State.Match ↔ n.states.get? i = some State.Match) ∧
  (n.next_id = n.states.length → n'.next_id = n'.states.length)

theorem matchPres_refl (n : NFA) : MatchPres n n := ⟨rfl, fun _ => Iff.rfl, id⟩

theorem matchPres_trans {a b c : NFA} (h1 : MatchPres a b) (h2 : MatchPres b c) :
    MatchPres a c :=
  ⟨h2.1.trans h1.1, fun i => (h2.2.1 i).trans (h1.2.1 i), fun h => h2.2.2 (h1.2.2 h)⟩

/-- `m` preserves the `Match`-state bookkeeping whenever it succeeds. -/
def PresM {α : Type} (m : M α) : Prop :=
  ∀ n a n', m n = Except.ok (a, n') → MatchPres n n'

theorem presM_pure {α : Type} (a : α) : PresM (mPure a) := by
  intro n x n' h
  simp only [mPure] at h
  cases h
  exact matchPres_refl n

theorem presM_err {α : Type} (e : CompileError) : PresM (mErr (α := α) e) := by
  intro n x n' h
  exact Except.noConfusion h

theorem presM_bind {α β : Type} {m : M α} {k : α → M β} (hm : PresM m)
    (hk : ∀ a, PresM (k a)) : PresM (mBind m k) := by
  intro n x n' h
  unfold mBind at h
  cases hmn : m n with
  | error e => rw [hmn] at h; exact Except.noConfusion h
  | ok p =>
      obtain ⟨a, nmid⟩ := p
      rw [hmn] at h
      exact matchPres_trans (hm n a nmid hmn) (hk a nmid x n' h)

theorem presM_mOfExcept {α : Type} (x : Except CompileError α) : PresM (mOfExcept x) := by
  intro n a n' h
  unfold mOfExcept at h
  cases x with
  | ok v => cases h; exact matchPres_refl n
  | error e => exact Except.noConfusion h

theorem presM_mState {α : Type} {f : NFA → α × NFA} (hf : ∀ n, MatchPres n (f n).2) :
    PresM (mState f) := by
  intro n a n' h
  unfold mState at h
  injection h with h2
  have h3 : (f n).2 = n' := congrArg Prod.snd h2
  rw [← h3]
  exact hf n

theorem presM_mModify {f : NFA → NFA} (hf : ∀ n, MatchPres n (f n)) : PresM (mModify f) := by
  intro n a n' h
  unfold mModify at h
  injection h with h2
  have h3 : f n = n' := congrArg Prod.snd h2
  rw [← h3]
  exact hf n

theorem get?_append_singleton_match {l : List State} {s : State} (hs : s ≠ State.Match)
    (i : Nat) : ((l ++ [s]).get? i = some State.Match) ↔ (l.get? i = some State.Match) := by
  rcases Nat.lt_trichotomy i l.length with hlt | heq | hgt
  · rw [List.get?_append hlt]
  · subst heq
    rw [List.get?_concat_length]
    constructor
    · intro h; injection h with h'; exact absurd h' hs
    · intro h
      rw [List.get?_eq_none.mpr (le_refl _)] at h
      exact Option.noConfusion h
  · have h1 : (l ++ [s]).get? i = none := by
      rw [List.get?_eq_none]
      simp only [List.length_append, List.length_cons, List.length_nil]
      omega
    have h2 : l.get? i = none := List.get?_eq_none.mpr (by omega)
    rw [h1, h2]

theorem matchPres_add_state {s : State} (hs : s ≠ State.Match) (n : NFA) :
    MatchPres n (n.add_state s).2 := by
  refine ⟨rfl, fun i => get?_append_singleton_match hs i, fun h => ?_⟩
  show n.next_id + 1 = (n.states ++ [s]).length
  simp [h]

theorem matchPres_epsilon (next : StateId) (n : NFA) : MatchPres n (n.epsilon next).2 :=
  matchPres_add_state (fun h => State.noConfusion h) n

theorem matchPres_split (targets : List StateId) (n : NFA) :
    MatchPres n (n.split targets).2 :=
  matchPres_add_state (fun h => State.noConfusion h) n

theorem matchPres_transition (t : TwoCharTransition) (n : NFA) :
    MatchPres n (n.transition_state t).2 :=
  matchPres_add_state (fun h => State.noConfusion h) n

theorem matchPres_transitions (ts : List TwoCharTransition) (n : NFA) :
    MatchPres n (n.transitions_state ts).2 :=
  matchPres_add_state (fun h => State.noConfusion h) n

theorem matchPres_rejected (n : NFA) : MatchPres n n.rejected_state.2 :=
  matchPres_add_state (fun h => State.noConfusion h) n

theorem connectState_match_iff (s : State) (toId : StateId) :
    connectState s toId = State.Match ↔ s = State.Match := by
  cases s <;> simp [connectState]

theorem matchPres_connect (from_ toId : StateId) (n : NFA) :
    MatchPres n (n.connect from_ toId) := by
  unfold NFA.connect
  split
  case isTrue hlt =>
    refine ⟨rfl, fun i => ?_, fun h => ?_⟩
    · by_cases hi : from_ = i
      · subst hi
        rw [List.get?_set_eq, List.get?_eq_get hlt]
        simp [connectState_match_iff]
      · rw [List.get?_set_ne _ _ hi]
    · show n.next_id = (n.states.set from_ _).length
      rw [List.length_set]
      exact h
  case isFalse => exact matchPres_refl n

theorem matchPres_set_transitions {n : NFA} {id : Nat} {ts newTs : List TwoCharTransition}
    (heq : n.states.get? id = some (State.Transitions ts)) :
    MatchPres n { n with states := n.states.set id (State.Transitions newTs) } := by
  refine ⟨rfl, fun i => ?_, fun h => ?_⟩
  · by_cases hi : id = i
    · subst hi
      rw [List.get?_set_eq, heq]
      simp
    · rw [List.get?_set_ne _ _ hi]
  · show n.next_id = (n.states.set id _).length
    rw [List.length_set]
    exact h

theorem matchPres_retargetLoops (m : StateId) (n : NFA) :
    MatchPres n (retargetLoops m n) := by
  unfold retargetLoops
  split
  next ts heq => exact matchPres_set_transitions heq
  next => exact matchPres_refl n

theorem matchPres_augmentGo (cs : List Char) :
    ∀ (fuel : Nat) (stack : List StateId) (visited : Finset Nat) (n : NFA),
      MatchPres n (augmentGo cs fuel stack visited n)
  | 0, _, _, n => matchPres_refl n
  | _ + 1, [], _, n => matchPres_refl n
  | fuel + 1, id :: stack, visited, n => by
      unfold augmentGo
      split
      · exact matchPres_augmentGo cs fuel stack visited n
      · split
        · exact matchPres_augmentGo cs fuel stack _ n
        · split
          next ts heq =>
            exact matchPres_trans (matchPres_set_transitions heq)
              (matchPres_augmentGo cs fuel _ _ _)
          next next heq => exact matchPres_augmentGo cs fuel _ _ _
          next targets heq => exact matchPres_augmentGo cs fuel _ _ _
          next heq heq2 heq3 => exact matchPres_augmentGo cs fuel _ _ _

theorem presM_augment_with_lookahead (start_state : StateId) (cs : List Char) :
    PresM (augment_with_lookahead start_state cs) :=
  presM_mModify fun n => matchPres_augmentGo cs _ _ _ n

theorem presM_ite {α : Type} {c : Prop} [Decidable c] {m1 m2 : M α}
    (h1 : PresM m1) (h2 : PresM m2) : PresM (if c then m1 else m2) := by
  split
  · exact h1
  · exact h2

theorem presM_compile_empty : PresM compile_empty :=
  presM_bind (presM_mState fun n => matchPres_epsilon 0 n) fun _ => presM_pure _

theorem presM_literalStates : ∀ cs : List Char, PresM (literalStates cs)
  | [] => presM_pure []
  | _ :: rest =>
      presM_bind (presM_mState fun n => matchPres_transition _ n) fun _ =>
        presM_bind (presM_literalStates rest) fun _ => presM_pure _

theorem presM_connectChain : ∀ fs : List Fragment, PresM (connectChain fs)
  | f1 :: f2 :: rest =>
      presM_bind (presM_mModify fun n => matchPres_connect _ _ n) fun _ =>
        presM_connectChain (f2 :: rest)
  | [] => presM_pure ()
  | [_] => presM_pure ()

theorem presM_compile_literal (cs : List Char) : PresM (compile_literal cs) := by
  unfold compile_literal
  refine presM_ite presM_compile_empty ?_
  refine presM_bind (presM_literalStates cs) ?_
  intro fragments
  refine presM_bind (presM_connectChain fragments) ?_
  intro _
  cases fragments with
  | nil => exact presM_err _
  | cons f0 rest =>
      cases hl : (f0 :: rest).getLast? with
      | none => exact presM_err _
      | some flast => exact presM_pure _

theorem presM_compile_negated (o : Oracle) (ranges : List (Char × Char)) :
    PresM (compile_negated_unicode_class o ranges) :=
  presM_bind (presM_mState fun n => matchPres_rejected n) fun _ => presM_pure _

theorem presM_compile_unicode_class (o : Oracle) (ranges : List (Char × Char)) :
    PresM (compile_unicode_class o ranges) := by
  unfold compile_unicode_class
  exact presM_ite (presM_compile_negated o ranges) (presM_pure _)

theorem presM_compile_bytes_class (ranges : List (Nat × Nat)) :
    PresM (compile_bytes_class ranges) :=
  presM_pure _

theorem presM_compile_class {tm : M (List TwoCharTransition)} (h : PresM tm) :
    PresM (compile_class tm) :=
  presM_bind h fun _ =>
    presM_bind (presM_mState fun n => matchPres_transitions _ n) fun _ => presM_pure _

theorem presM_compile_with_lookahead {rec : Hir → M Fragment}
    (hrec : ∀ h', PresM (rec h')) (first second : Hir) :
    PresM (compile_with_lookahead rec first second) :=
  presM_bind (presM_mOfExcept _) fun _ =>
    presM_bind (hrec first) fun _ =>
      presM_bind (presM_augment_with_lookahead _ _) fun _ => presM_pure _

theorem presM_cpwdl {rec : Hir → M Fragment} (hrec : ∀ h', PresM (rec h')) (a b : Hir) :
    PresM (compile_possessive_with_disjoint_lookahead rec a b) := by
  unfold compile_possessive_with_disjoint_lookahead
  refine presM_bind (hrec a) ?_
  intro frag
  cases b
  case look l =>
    cases l <;>
      first
        | exact presM_bind (presM_pure ()) fun _ => presM_pure _
        | exact presM_err _
  all_goals exact presM_err _

theorem presM_compile_pair {rec : Hir → M Fragment} (hrec : ∀ h', PresM (rec h'))
    (a b : Hir) : PresM (compile_pair rec a b) := by
  unfold compile_pair
  refine presM_ite (presM_err _) ?_
  refine presM_ite ?_ ?_
  · refine presM_ite ?_ ?_
    · refine presM_bind (presM_mOfExcept _) ?_
      intro d
      refine presM_ite ?_ (presM_err _)
      exact presM_bind (presM_cpwdl hrec a b) fun _ => presM_pure _
    · exact presM_bind (presM_compile_with_lookahead hrec a b) fun _ => presM_pure _
  · exact presM_bind (hrec a) fun _ => presM_pure _

theorem presM_concatGo {rec : Hir → M Fragment} (hrec : ∀ h', PresM (rec h')) :
    ∀ l : List Hir, PresM (concatGo rec l)
  | [] => presM_pure []
  | [a] => presM_bind (hrec a) fun _ => presM_pure _
  | a :: b :: rest => by
      unfold concatGo
      refine presM_bind (presM_compile_pair hrec a b) ?_
      intro fc
      refine presM_ite ?_ ?_
      · exact presM_bind (presM_concatGo hrec rest) fun _ => presM_pure _
      · exact presM_bind (presM_concatGo hrec (b :: rest)) fun _ => presM_pure _

theorem presM_compile_concat {rec : Hir → M Fragment} (hrec : ∀ h', PresM (rec h'))
    (l : List Hir) : PresM (compile_concat rec l) := by
  cases l with
  | nil => exact presM_compile_empty
  | cons a rest =>
      cases rest with
      | nil => exact hrec a
      | cons b rest2 =>
          refine presM_bind (presM_concatGo hrec (a :: b :: rest2)) ?_
          intro fragments
          refine presM_bind (presM_connectChain fragments) ?_
          intro _
          cases fragments with
          | nil => exact presM_err _
          | cons f0 frest =>
              cases hl : (f0 :: frest).getLast? with
              | none => exact presM_err _
              | some flast => exact presM_pure _

theorem presM_altFrags {rec : Hir → M Fragment} (hrec : ∀ h', PresM (rec h')) :
    ∀ l : List Hir, PresM (altFrags rec l)
  | [] => presM_pure []
  | a :: rest =>
      presM_bind (hrec a) fun _ =>
        presM_bind (presM_altFrags hrec rest) fun _ => presM_pure _

theorem presM_altGo : ∀ (fs : List Fragment) (res : Fragment), PresM (altGo fs res)
  | [], res => presM_pure res
  | _ :: rest, _ =>
      presM_bind (presM_mState fun n => matchPres_epsilon 0 n) fun _ =>
        presM_bind (presM_mState fun n => matchPres_split _ n) fun _ =>
          presM_bind (presM_mModify fun n => matchPres_connect _ _ n) fun _ =>
            presM_bind (presM_mModify fun n => matchPres_connect _ _ n) fun _ =>
              presM_altGo rest _

theorem presM_compile_alternation {rec : Hir → M Fragment} (hrec : ∀ h', PresM (rec h'))
    (l : List Hir) : PresM (compile_alternation rec l) := by
  cases l with
  | nil => exact presM_compile_empty
  | cons a rest =>
      refine presM_bind (presM_altFrags hrec (a :: rest)) ?_
      intro fragments
      cases hrev : fragments.reverse with
      | nil => exact presM_err _
      | cons result restRev =>
          cases restRev with
          | nil => exact presM_pure result
          | cons x xs => exact presM_altGo (x :: xs) result

theorem presM_compile_question {rec : Hir → M Fragment} (hrec : ∀ h', PresM (rec h'))
    (expr : Hir) (p q : Bool) : PresM (compile_question rec expr p q) :=
  presM_bind (hrec expr) fun _ =>
    presM_bind (presM_mState fun n => matchPres_epsilon 0 n) fun _ =>
      presM_bind (presM_mState fun n => matchPres_split _ n) fun _ =>
        presM_bind (presM_mModify fun n => matchPres_connect _ _ n) fun _ => presM_pure _

theorem presM_compile_possessive_plus (expr : Hir) :
    PresM (compile_possessive_plus expr) :=
  presM_bind (presM_mOfExcept _) fun _ =>
    presM_bind (presM_mState fun n => matchPres_transitions _ n) fun ms =>
      presM_bind (presM_mModify (matchPres_retargetLoops ms)) fun _ =>
        presM_bind (presM_mState fun n => matchPres_epsilon _ n) fun _ =>
          presM_bind (presM_mModify fun n => matchPres_connect _ _ n) fun _ => presM_pure _

theorem presM_compile_possessive_star (expr : Hir) :
    PresM (compile_possessive_star expr) :=
  presM_bind (presM_compile_possessive_plus expr) fun _ =>
    presM_bind (presM_mState fun n => matchPres_epsilon _ n) fun _ =>
      presM_bind (presM_mState fun n => matchPres_split _ n) fun _ =>
        presM_bind (presM_mModify fun n => matchPres_connect _ _ n) fun _ => presM_pure _

theorem presM_compile_star {rec : Hir → M Fragment} (hrec : ∀ h', PresM (rec h'))
    (expr : Hir) (p q : Bool) : PresM (compile_star rec expr p q) := by
  unfold compile_star
  refine presM_ite (presM_compile_possessive_star expr) ?_
  exact presM_bind (hrec expr) fun _ =>
    presM_bind (presM_mState fun n => matchPres_epsilon 0 n) fun _ =>
      presM_bind (presM_mState fun n => matchPres_split _ n) fun _ =>
        presM_bind (presM_mModify fun n => matchPres_connect _ _ n) fun _ => presM_pure _

theorem presM_compile_plus {rec : Hir → M Fragment} (hrec : ∀ h', PresM (rec h'))
    (expr : Hir) (p q : Bool) : PresM (compile_plus rec expr p q) := by
  unfold compile_plus
  refine presM_ite (presM_compile_possessive_plus expr) ?_
  exact presM_bind (hrec expr) fun _ =>
    presM_bind (presM_mState fun n => matchPres_epsilon 0 n) fun _ =>
      presM_bind (presM_mState fun n => matchPres_split _ n) fun _ =>
        presM_bind (presM_mModify fun n => matchPres_connect _ _ n) fun _ => presM_pure _

theorem presM_copies {rec : Hir → M Fragment} (hrec : ∀ h', PresM (rec h')) (expr : Hir) :
    ∀ k : Nat, PresM (copies rec expr k)
  | 0 => presM_pure []
  | k + 1 =>
      presM_bind (hrec expr) fun _ =>
        presM_bind (presM_copies hrec expr k) fun _ => presM_pure _

theorem presM_countedOptional : ∀ (fs : List Fragment) (ce es : StateId),
    PresM (countedOptional fs ce es)
  | [], _, _ => presM_mModify fun n => matchPres_connect _ _ n
  | _ :: rest, _, _ =>
      presM_bind (presM_mState fun n => matchPres_split _ n) fun _ =>
        presM_bind (presM_mModify fun n => matchPres_connect _ _ n) fun _ =>
          presM_countedOptional rest _ _

theorem presM_compile_counted {rec : Hir → M Fragment} (hrec : ∀ h', PresM (rec h'))
    (expr : Hir) (min : Nat) (max : Option Nat) (p : Bool) :
    PresM (compile_counted rec expr min max p) := by
  unfold compile_counted
  refine presM_bind (presM_copies hrec expr min) ?_
  intro required
  refine presM_bind ?_ ?_
  · cases max with
    | some m => exact presM_copies hrec expr (m - min)
    | none => exact presM_pure []
  · intro optional
    cases hfr : required ++ optional with
    | nil => exact presM_compile_empty
    | cons f0 rest =>
        refine presM_bind (presM_connectChain _) ?_
        intro _
        refine presM_bind (presM_mState fun n => matchPres_epsilon 0 n) ?_
        intro end_state
        cases max with
        | some m =>
            exact presM_bind (presM_countedOptional _ _ _) fun _ => presM_pure _
        | none =>
            exact presM_bind (hrec expr) fun _ =>
              presM_bind (presM_mState fun n => matchPres_split _ n) fun _ =>
                presM_bind (presM_mModify fun n => matchPres_connect _ _ n) fun _ =>
                  presM_bind (presM_mModify fun n => matchPres_connect _ _ n) fun _ =>
                    presM_pure _

theorem presM_compile_repetition {rec : Hir → M Fragment} (hrec : ∀ h', PresM (rec h'))
    (sub : Hir) (min : Nat) (max : Option Nat) (kind : RepetitionKind) :
    PresM (compile_repetition rec min max kind sub) := by
  unfold compile_repetition
  rcases min with - | min
  · rcases max with - | m
    · exact presM_compile_star hrec sub _ _
    · rcases m with - | m
      · exact presM_compile_counted hrec sub _ _ _
      · rcases m with - | m
        · exact presM_compile_question hrec sub _ _
        · exact presM_compile_counted hrec sub _ _ _
  · rcases min with - | min
    · rcases max with - | m
      · exact presM_compile_plus hrec sub _ _
      · exact presM_compile_counted hrec sub _ _ _
    · exact presM_compile_counted hrec sub _ _ _

theorem presM_compileHirF (o : Oracle) : ∀ (fuel : Nat) (h : Hir),
    PresM (compileHirF o fuel h)
  | 0, _ => presM_err _
  | _ + 1, Hir.empty => presM_compile_empty
  | _ + 1, Hir.literal cs => presM_compile_literal cs
  | _ + 1, Hir.classU ranges => presM_compile_class (presM_compile_unicode_class o ranges)
  | _ + 1, Hir.classB ranges => presM_compile_class (presM_compile_bytes_class ranges)
  | _ + 1, Hir.look _ => presM_err _
  | fuel + 1, Hir.repetition min max kind sub =>
      presM_compile_repetition (fun h' => presM_compileHirF o fuel h') sub min max kind
  | fuel + 1, Hir.capture sub => presM_compileHirF o fuel sub
  | fuel + 1, Hir.concat subs =>
      presM_compile_concat (fun h' => presM_compileHirF o fuel h') subs
  | fuel + 1, Hir.alternation subs =>
      presM_compile_alternation (fun h' => presM_compileHirF o fuel h') subs

/-- Claim C7: for every HIR whose compilation succeeds, `accepting`
contains exactly the ids of `Match` states: every id in `accepting`
refers to a `Match` state of `states`, and every `Match` state's id is
in `accepting`. -/
theorem compile_accepting_iff_match (o : Oracle) (h : Hir) (nfa : NFA)
    (hc : compile o h = Except.ok nfa) :
    ∀ i, i ∈ nfa.accepting ↔ nfa.states.get? i = some State.Match := by
  unfold compile at hc
  cases hcomp : compileHirF o (hirFuel h) h NFA.new with
  | error e => rw [hcomp] at hc; exact Except.noConfusion hc
  | ok p =>
      obtain ⟨fragment, n1⟩ := p
      rw [hcomp] at hc
      obtain ⟨hacc, hmatch, hnext⟩ := presM_compileHirF o (hirFuel h) h NFA.new fragment n1 hcomp
      have hlen : n1.next_id = n1.states.length := hnext rfl
      have hnomatch : ∀ i, ¬ n1.states.get? i = some State.Match := by
        intro i hi
        have := (hmatch i).mp hi
        simp [NFA.new] at this
      have haccEmpty : n1.accepting = ∅ := hacc
      -- unfold the tail of compile: set start, add the Match state, connect
      injection hc with hc2
      subst hc2
      intro i
      -- the final connect preserves accepting and Match positions
      obtain ⟨cacc, cmatch, -⟩ := matchPres_connect fragment.stop
        ({ n1 with start := fragment.start } : NFA).match_state.1
        ({ n1 with start := fragment.start } : NFA).match_state.2
      rw [cacc, cmatch i]
      -- now about match_state of n2
      show i ∈ insert n1.next_id n1.accepting ↔
        (n1.states ++ [State.Match]).get? i = some State.Match
      rw [haccEmpty, hlen]
      constructor
      · intro hi
        have hieq : i = n1.states.length := by
          rcases Finset.mem_insert.mp hi with heq | hmem
          · exact heq
          · exact absurd hmem (Finset.not_mem_empty i)
        subst hieq
        exact List.get?_concat_length _ _
      · intro hi
        rcases Nat.lt_trichotomy i n1.states.length with hlt | heq | hgt
        · rw [List.get?_append hlt] at hi
          exact absurd hi (hnomatch i)
        · subst heq
          exact Finset.mem_insert_self _ _
        · rw [List.get?_eq_none.mpr (by simp; omega)] at hi
          exact Option.noConfusion hi

theorem compile_accepting_iff_match_witness :
    1 ∈ nfaLitA.accepting ↔ nfaLitA.states.get? 1 = some State.Match :=
  compile_accepting_iff_match ordId hirLitA nfaLitA (by decide) 1

end TNC
